import Mathlib

/-!
Verification of the BWA PDF ingestion and catalog reconciliation pipeline.

Definitions below are shallow embeddings of the TypeScript sources:
the category-to-code-prefix table, the sequential code allocator
(`nextCodeForPrefix`), and the bulk-import POST handler come from the
product-save route (src/unnamed/part_004); the import-payload construction
comes from the BWA admin page (src/app/admin/bwa/page.tsx); the catalog
matcher, whose server code is not part of the visible sources, is modelled
from the specification.  Strings are compared by code unit, exactly as the
database orders codes and as JavaScript compares strings, via explicit
character-list functions so that every statement is executable.
-/

set_option maxRecDepth 10000

/-- A character is an ASCII decimal digit. -/
def isDigitB (c : Char) : Bool := 48 ≤ c.toNat && c.toNat ≤ 57

/-- Numeric value of an ASCII digit character. -/
def digitVal (c : Char) : ℕ := c.toNat - 48

/-- Value of a list of decimal digit characters, most significant first. -/
def natFromDigits (l : List Char) : ℕ := l.foldl (fun a c => a * 10 + digitVal c) 0

/-- Whitespace test used by the embedding of JavaScript trim. -/
def isWsB (c : Char) : Bool := c == ' ' || c == '\t' || c == '\n' || c == '\r'

/-- Embedding of JavaScript String.prototype.trim (ASCII whitespace). -/
def strTrim (s : String) : String :=
  ⟨((s.data.dropWhile isWsB).reverse.dropWhile isWsB).reverse⟩

/-- String concatenation at the character-list level. -/
def strAppend (a b : String) : String := ⟨a.data ++ b.data⟩

/-- Embedding of JavaScript String.prototype.slice from a start index. -/
def strDropData (s : String) (n : ℕ) : String := ⟨s.data.drop n⟩

/-- Strict code-unit lexicographic comparison of character lists, the order
used by JavaScript string comparison and by the database when sorting the
`code` column of ASCII codes in descending order. -/
def lexLtB : List Char → List Char → Bool
  | [], [] => false
  | [], _ :: _ => true
  | _ :: _, [] => false
  | x :: xs, y :: ys =>
    if x.toNat < y.toNat then true
    else if y.toNat < x.toNat then false
    else lexLtB xs ys

/-- Character-list prefix test. -/
def isPrefixOfB : List Char → List Char → Bool
  | [], _ => true
  | _ :: _, [] => false
  | x :: xs, y :: ys => x == y && isPrefixOfB xs ys

/-- Embedding of JavaScript String.prototype.startsWith, used by the
allocator's `where: { code: { startsWith: prefix } }` query filter. -/
def strStartsWithB (s pfx : String) : Bool := isPrefixOfB pfx.data s.data

/-- Decimal digits of a natural number, via an explicit fuel argument so the
kernel can evaluate it; `natDigits` below supplies sufficient fuel.  This
embeds the JavaScript conversion `String(n)` for natural `n`. -/
def natDigitsAux : ℕ → ℕ → List Char
  | 0, _ => []
  | fuel + 1, n =>
    if n < 10 then [Nat.digitChar n]
    else natDigitsAux fuel (n / 10) ++ [Nat.digitChar (n % 10)]

/-- Decimal digit characters of a natural number (embeds `String(n)`). -/
def natDigits (n : ℕ) : List Char := natDigitsAux (n + 1) n

/-- Embedding of `.padStart(3, "0")`: left-pad with zeros to length 3,
leaving longer inputs unchanged. -/
def padStart3 (l : List Char) : List Char := List.replicate (3 - l.length) '0' ++ l

/-- Embedding of the allocator's result formatting from part_004 line 46:
the category prefix followed by the zero-padded next number. -/
def formatCode (pfx : String) (n : ℕ) : String := strAppend pfx ⟨padStart3 (natDigits n)⟩

/-- The catalog row with the code-unit-maximal code, i.e. the result of the
allocator's `findFirst` with `orderBy: { code: "desc" }` over the filtered
rows (part_004 lines 34-38), on a catalog represented by its list of codes. -/
def maxCode? : List String → Option String
  | [] => none
  | c :: rest =>
    match maxCode? rest with
    | none => some c
    | some m => if lexLtB m.data c.data then some c else some m

/-- Embedding of `Number(s)` restricted to the shapes that occur in code
suffixes: a (possibly empty) all-digit string parses to its value, with the
empty string giving 0 as in JavaScript; any other string is a parse failure,
standing for NaN.  Decimal, signed and exponent forms accepted by the real
`Number` never arise for the catalogs considered by the claims. -/
def jsNumberNat? (s : String) : Option ℕ :=
  if s.data.all (fun c => isDigitB c) then some (natFromDigits s.data) else none

/-- Embedding of part_004 lines 40-43: the current maximum numeric suffix,
with the redundant `startsWith` re-check, `Number(...)` on the slice past the
prefix, and the `|| 0` fallback (covering the NaN case) as `getD 0`. -/
def currentOf (pfx : String) (latest : Option String) : ℕ :=
  match latest with
  | some c =>
    if strStartsWithB c pfx then (jsNumberNat? (strDropData c pfx.data.length)).getD 0 else 0
  | none => 0

/-- Embedding of `nextCodeForPrefix` from part_004 lines 33-47: query the
maximal code under the prefix, parse its numeric suffix (default 0),
increment, and format with zero padding. -/
def nextCodeForPfx (pfx : String) (catalog : List String) : String :=
  formatCode pfx (currentOf pfx (maxCode? (catalog.filter fun c => strStartsWithB c pfx)) + 1)

/-- One sequential allocation: compute the next code and insert it into the
catalog before the next call.  State is (codes allocated so far, catalog). -/
def allocStep (pfx : String) (st : List String × List String) : List String × List String :=
  let code := nextCodeForPfx pfx st.2
  (st.1 ++ [code], code :: st.2)

/-- `n` sequential non-concurrent allocations starting from an empty catalog,
each allocated code inserted before the next call. -/
def allocSeq (pfx : String) : ℕ → List String × List String
  | 0 => ([], [])
  | n + 1 => allocStep pfx (allocSeq pfx n)

/-- The codes produced by `n` sequential allocations from an empty catalog. -/
def allocCodes (pfx : String) (n : ℕ) : List String := (allocSeq pfx n).1

/-- Embedding of the CATEGORY_PREFIX record from part_004 lines 22-31, as a
partial lookup: absent keys give `none` (JavaScript `undefined`). -/
def categoryToPfxTable (c : String) : Option String :=
  if c = "Kitchen" then some "A"
  else if c = "Bathroom" then some "E"
  else if c = "Bedroom" then some "B"
  else if c = "Living Room" then some "C"
  else if c = "Laundry" then some "F"
  else if c = "Balcony" then some "G"
  else if c = "Patio" then some "D"
  else if c = "Other" then some "Z"
  else none

/-- Embedding of part_004 line 84: `(raw?.category || "Other").trim() || "Other"`;
a missing or empty label falls back to "Other" before and after trimming. -/
def resolveCategory (rawCategory : Option String) : String :=
  let c := match rawCategory with
    | none => "Other"
    | some s => if s = "" then "Other" else s
  let t := strTrim c
  if t = "" then "Other" else t

/-- Embedding of part_004 line 85: `CATEGORY_PREFIX[category] || CATEGORY_PREFIX.Other`;
the table values are never empty, so the fallback fires exactly on a missing key. -/
def resolvePfx (rawCategory : Option String) : String :=
  (categoryToPfxTable (resolveCategory rawCategory)).getD "Z"

/-- Embedding of the BWA page's price input sanitizer (page.tsx line 285):
`value.replace(/[^\d.]/g, "")` keeps every digit and every dot. -/
def stripPriceInput (s : String) : String :=
  ⟨s.data.filter fun c => isDigitB c || c == '.'⟩

/-- Embedding of `Number.parseFloat` on strings made of digits and dots:
it reads a digit run, optionally a dot and a second digit run, and ignores
the rest of the string; it fails (NaN) only when no digits were read.  Signs,
exponents and leading whitespace accepted by the real parseFloat do not occur
in the price strings considered by the claims. -/
def parseFloatQ? (s : String) : Option ℚ :=
  let intPart := s.data.takeWhile isDigitB
  let rest := s.data.dropWhile isDigitB
  match rest with
  | '.' :: rest2 =>
    let fracPart := rest2.takeWhile isDigitB
    if intPart.isEmpty && fracPart.isEmpty then none
    else some ((natFromDigits intPart : ℚ) + (natFromDigits fracPart : ℚ) / (10 ^ fracPart.length))
  | _ => if intPart.isEmpty then none else some (natFromDigits intPart)

/-- Embedding of part_004 lines 99-103: a falsy (missing or empty) price
gives NaN hence null; otherwise `Number.parseFloat`, stored as null when not
finite (i.e. on parse failure). -/
def postPrice (o : Option String) : Option ℚ :=
  match o with
  | none => none
  | some s => if s = "" then none else parseFloatQ? s

/-- Embedding of the IncomingProduct payload type of part_004 lines 9-20.
The base64 `image` field is omitted: the object-storage upload and its
timestamped URL are side effects outside every claim considered here. -/
structure IncomingProduct where
  category : Option String := none
  code : Option String := none
  description : Option String := none
  manufacturerDescription : Option String := none
  productDetails : Option String := none
  areaDescription : Option String := none
  quantity : Option String := none
  price : Option String := none
  notes : Option String := none
deriving DecidableEq

/-- One conditional push of `buildProductDetails` (part_004 lines 50-54):
a present, nonempty-after-trim field contributes one formatted part. -/
def pushIfTrimmed (o : Option String) (f : String → String) : List String :=
  match o with
  | some s => if strTrim s = "" then [] else [f (strTrim s)]
  | none => []

/-- Embedding of `Array.prototype.join` with a separator. -/
def strJoinSep (sep : String) : List String → String
  | [] => ""
  | [x] => x
  | x :: xs => strAppend x (strAppend sep (strJoinSep sep xs))

/-- Embedding of `buildProductDetails` from part_004 lines 49-56. -/
def buildProductDetails (p : IncomingProduct) : Option String :=
  let parts := pushIfTrimmed p.productDetails id ++
    pushIfTrimmed p.areaDescription (fun t => strAppend "Area: " t) ++
    pushIfTrimmed p.quantity (fun t => strAppend "Qty: " t) ++
    pushIfTrimmed p.notes (fun t => strAppend "Notes: " t)
  if parts.isEmpty then none else some (strJoinSep " | " parts)

/-- The catalog row created by the route (part_004 lines 120-131), without
the image URL, whose timestamped name is outside every claim. -/
structure SavedProduct where
  code : String
  name : String
  area : String
  description : String
  manufacturerDescription : Option String
  productDetails : Option String
  price : Option ℚ
deriving DecidableEq

/-- Embedding of the name fallback chain of part_004 lines 88-92; the
template-literal alternative is always truthy, so the final "Product"
fallback is dead. -/
def createName (raw : IncomingProduct) (code : String) : String :=
  let d := match raw.description with | some s => strTrim s | none => ""
  if d ≠ "" then d
  else
    let c := match raw.code with | some s => strTrim s | none => ""
    if c ≠ "" then c else strAppend "Product " code

/-- The row data assembled by the route for one incoming product
(part_004 lines 88-131). -/
def savedOf (raw : IncomingProduct) (category code : String) : SavedProduct :=
  { code := code
    name := createName raw code
    area := category
    description := match raw.description with
      | some s => if strTrim s = "" then "N/A" else strTrim s
      | none => "N/A"
    manufacturerDescription := match raw.manufacturerDescription with
      | some s => if strTrim s = "" then none else some (strTrim s)
      | none => none
    productDetails := buildProductDetails raw
    price := postPrice raw.price }

/-- Responses of the import route POST handler: `missingProducts` is the 400
"At least one product is required" response, `serverError savedCount` is the
500 "Failed to save products" response carrying the number of products saved
before the failure, and `ok` is the success response. -/
inductive PostResponse where
  | missingProducts
  | serverError (savedCount : ℕ)
  | ok (products : List SavedProduct)
deriving DecidableEq

/-- Embedding of the route's per-product loop (part_004 lines 82-145).  The
catalog is its list of codes; `prisma.product.create` fails exactly when the
allocated code already exists (the uniqueness constraint on `code`), and the
surrounding try/catch turns the first such failure into the 500 response with
`savedCount`, leaving all previously created rows in place — there is no
retry and no transaction in the source. -/
def postSaveLoop : List IncomingProduct → List String → List SavedProduct →
    PostResponse × List String
  | [], cat, saved => (.ok saved, cat)
  | raw :: rest, cat, saved =>
    let category := resolveCategory raw.category
    let pfx := resolvePfx raw.category
    let code := nextCodeForPfx pfx cat
    if code ∈ cat then (.serverError saved.length, cat)
    else postSaveLoop rest (code :: cat) (saved ++ [savedOf raw category code])

/-- Embedding of the POST handler from the products-array check onward
(part_004 lines 71-147); authentication and JSON-body parsing happen before
the state this models. -/
def postProducts (products : List IncomingProduct) (cat : List String) :
    PostResponse × List String :=
  if products = [] then (.missingProducts, cat) else postSaveLoop products cat []

/-- Two code-allocation requests for the same prefix in the interleaving
where both `findFirst` reads execute before either insert.  Nothing in
`nextCodeForPrefix` or the POST handler takes a lock or opens a transaction,
so this schedule is possible; each component is the code the corresponding
request computes and then tries to insert. -/
def concurrentPairAlloc (pfx : String) (cat : List String) : String × String :=
  (nextCodeForPfx pfx cat, nextCodeForPfx pfx cat)

/-- A manual-entry row of the BWA page (page.tsx lines 6-13), without the
client-side `id` used only for React list keys. -/
structure BwaRow where
  code : String
  manufacturerDescription : String
  price : String
  imageUrl : String
  notes : String
deriving DecidableEq

/-- One record of the import payload built by `handleImport`
(page.tsx lines 134-144). -/
structure BwaPayloadItem where
  code : String
  description : String
  manufacturerDescription : String
  productDetails : String
  price : String
  imageUrl : String
  areaName : String
deriving DecidableEq

/-- The payload record built from one kept row (page.tsx lines 136-144). -/
def bwaItemOf (r : BwaRow) : BwaPayloadItem :=
  { code := strTrim r.code
    description := if strTrim r.manufacturerDescription = "" then strTrim r.code
      else strTrim r.manufacturerDescription
    manufacturerDescription := strTrim r.manufacturerDescription
    productDetails := strTrim r.notes
    price := strTrim r.price
    imageUrl := strTrim r.imageUrl
    areaName := "Other" }

/-- Embedding of the payload construction of `handleImport` (page.tsx lines
134-144): rows whose trimmed code is empty are filtered out before mapping. -/
def bwaImportPayload (rows : List BwaRow) : List BwaPayloadItem :=
  (rows.filter fun r => strTrim r.code != "").map bwaItemOf

/-- Embedding of the submission decision of `handleImport` (page.tsx lines
146-149): an empty payload is rejected with a toast and nothing is sent;
otherwise the payload is POSTed. -/
def handleImportSubmits (rows : List BwaRow) : Option (List BwaPayloadItem) :=
  let payload := bwaImportPayload rows
  if payload.length = 0 then none else some payload

/-- ASCII case folding by numeric value, for case-insensitive code equality. -/
def toLowerN (c : Char) : ℕ :=
  if 65 ≤ c.toNat ∧ c.toNat ≤ 90 then c.toNat + 32 else c.toNat

/-- Case-insensitive (ASCII) string equality on codes. -/
def codeEqCI (a b : String) : Bool :=
  a.data.length == b.data.length &&
    (a.data.zip b.data).all fun p => toLowerN p.1 == toLowerN p.2

/-- A catalog row as seen by the matcher. -/
structure CatalogProduct where
  code : String
  description : String
deriving DecidableEq

/-- Modelled from the spec: the Catalog Matcher (spec section 4.4), whose
server route is not among the visible sources — only its caller
`handlePdfUpload` in ProductSheetApp.tsx is.  Given the extracted code set
and the catalog, it returns the matched rows (for each code, the first
catalog row with case-insensitively equal code, in first-appearance order)
and the codes with no catalog row. -/
def matchCodes (allCodes : List String) (catalog : List CatalogProduct) :
    List CatalogProduct × List String :=
  (allCodes.filterMap fun c => catalog.find? fun p => codeEqCI p.code c,
   allCodes.filter fun c => (catalog.find? fun p => codeEqCI p.code c).isNone)

/-- Modelled from the spec: the matcher run as a state transformer over the
catalog, returning its partition together with the catalog it leaves behind;
the matcher only issues read-only lookups. -/
def matchCodesRun (allCodes : List String) (catalog : List CatalogProduct) :
    (List CatalogProduct × List String) × List CatalogProduct :=
  (matchCodes allCodes catalog, catalog)

/-! General lemmas about the embedded operations. -/

theorem natDigitsAux_congr : ∀ f1 : ℕ, ∀ n : ℕ, n < f1 → ∀ f2 : ℕ, n < f2 →
    natDigitsAux f1 n = natDigitsAux f2 n := by
  intro f1
  induction f1 with
  | zero => intro n h; omega
  | succ g ih =>
    intro n hn f2 hf2
    match f2, hf2 with
    | g2 + 1, _ =>
      simp only [natDigitsAux]
      by_cases h : n < 10
      · simp [h]
      · simp only [if_neg h]
        have hd : n / 10 < n := Nat.div_lt_self (by omega) (by omega)
        rw [ih (n / 10) (by omega) g2 (by omega)]

theorem natDigits_eq (n : ℕ) :
    natDigits n = if n < 10 then [Nat.digitChar n]
      else natDigits (n / 10) ++ [Nat.digitChar (n % 10)] := by
  show natDigitsAux (n + 1) n = _
  simp only [natDigitsAux]
  by_cases h : n < 10
  · simp [h]
  · simp only [if_neg h]
    have hd : n / 10 < n := Nat.div_lt_self (by omega) (by omega)
    rw [natDigitsAux_congr n (n / 10) (by omega) (n / 10 + 1) (by omega)]
    rfl

theorem digitChar_isDigit (k : ℕ) (hk : k ≤ 9) : isDigitB (Nat.digitChar k) = true := by
  interval_cases k <;> rfl

theorem digitVal_digitChar (k : ℕ) (hk : k ≤ 9) : digitVal (Nat.digitChar k) = k := by
  interval_cases k <;> rfl

theorem natDigits_all_digits (n : ℕ) : ∀ c ∈ natDigits n, isDigitB c = true := by
  induction n using Nat.strong_induction_on with
  | _ n ih =>
    rw [natDigits_eq]
    by_cases h : n < 10
    · simp only [if_pos h, List.mem_singleton]
      rintro c rfl
      exact digitChar_isDigit n (by omega)
    · simp only [if_neg h, List.mem_append, List.mem_singleton]
      rintro c (hc | rfl)
      · exact ih (n / 10) (Nat.div_lt_self (by omega) (by omega)) c hc
      · exact digitChar_isDigit (n % 10) (by omega)

theorem natFromDigits_append_one (l : List Char) (c : Char) :
    natFromDigits (l ++ [c]) = 10 * natFromDigits l + digitVal c := by
  simp [natFromDigits, List.foldl_append]
  ring

theorem natFromDigits_natDigits (n : ℕ) : natFromDigits (natDigits n) = n := by
  induction n using Nat.strong_induction_on with
  | _ n ih =>
    rw [natDigits_eq]
    by_cases h : n < 10
    · simp only [if_pos h]
      show 0 * 10 + digitVal (Nat.digitChar n) = n
      rw [digitVal_digitChar n (by omega)]; omega
    · simp only [if_neg h]
      rw [natFromDigits_append_one, ih (n / 10) (Nat.div_lt_self (by omega) (by omega)),
        digitVal_digitChar (n % 10) (by omega)]
      omega

theorem natFromDigits_replicate_zero (k : ℕ) (l : List Char) :
    natFromDigits (List.replicate k '0' ++ l) = natFromDigits l := by
  induction k with
  | zero => simp
  | succ m ih =>
    have hrep : List.replicate (m + 1) '0' ++ l = '0' :: (List.replicate m '0' ++ l) := by
      simp [List.replicate_succ]
    rw [hrep]
    show List.foldl _ (0 * 10 + digitVal '0') _ = _
    have hz : (0 * 10 + digitVal '0') = 0 := by decide
    rw [hz]
    exact ih

theorem natFromDigits_padStart3 (n : ℕ) :
    natFromDigits (padStart3 (natDigits n)) = n := by
  rw [padStart3, natFromDigits_replicate_zero, natFromDigits_natDigits]

theorem natDigits_len_le_1 (n : ℕ) (h : n ≤ 9) : (natDigits n).length = 1 := by
  rw [natDigits_eq, if_pos (by omega)]; rfl

theorem natDigits_len_le_2 (n : ℕ) (h : n ≤ 99) : (natDigits n).length ≤ 2 := by
  rw [natDigits_eq]
  by_cases h10 : n < 10
  · simp [h10]
  · rw [if_neg h10]
    simp [natDigits_len_le_1 (n / 10) (by omega)]

theorem natDigits_len_le_3 (n : ℕ) (h : n ≤ 999) : (natDigits n).length ≤ 3 := by
  rw [natDigits_eq]
  by_cases h10 : n < 10
  · simp [h10]
  · rw [if_neg h10]
    have := natDigits_len_le_2 (n / 10) (by omega)
    simp; omega

theorem natDigits_len_pos (n : ℕ) : 1 ≤ (natDigits n).length := by
  rw [natDigits_eq]
  by_cases h10 : n < 10
  · simp [h10]
  · rw [if_neg h10]; simp

theorem natDigits_len_ge_2 (n : ℕ) (h : 10 ≤ n) : 2 ≤ (natDigits n).length := by
  rw [natDigits_eq, if_neg (by omega)]
  have := natDigits_len_pos (n / 10)
  simp; omega

theorem natDigits_len_ge_3 (n : ℕ) (h : 100 ≤ n) : 3 ≤ (natDigits n).length := by
  rw [natDigits_eq, if_neg (by omega)]
  have := natDigits_len_ge_2 (n / 10) (by omega)
  simp; omega

theorem natDigits_len_ge_4 (n : ℕ) (h : 1000 ≤ n) : 4 ≤ (natDigits n).length := by
  rw [natDigits_eq, if_neg (by omega)]
  have := natDigits_len_ge_3 (n / 10) (by omega)
  simp; omega

theorem padStart3_len (l : List Char) : (padStart3 l).length = max 3 l.length := by
  simp [padStart3]; omega

theorem padStart3_eq_self (l : List Char) (h : 3 ≤ l.length) : padStart3 l = l := by
  simp [padStart3, Nat.sub_eq_zero_of_le h]

theorem padStart3_all_digits (n : ℕ) :
    ∀ c ∈ padStart3 (natDigits n), isDigitB c = true := by
  intro c hc
  rw [padStart3, List.mem_append] at hc
  rcases hc with hc | hc
  · rw [List.eq_of_mem_replicate hc]; rfl
  · exact natDigits_all_digits n c hc

theorem lexLtB_irrefl (l : List Char) : lexLtB l l = false := by
  induction l with
  | nil => rfl
  | cons x xs ih => simp [lexLtB, ih]

theorem lexLtB_trans (a b c : List Char) (hab : lexLtB a b = true)
    (hbc : lexLtB b c = true) : lexLtB a c = true := by
  induction a generalizing b c with
  | nil =>
    match b, hab with
    | y :: ys, _ =>
      match c, hbc with
      | z :: zs, _ => rfl
  | cons x xs ih =>
    match b, hab with
    | y :: ys, hab =>
      match c, hbc with
      | z :: zs, hbc =>
        simp only [lexLtB] at hab hbc ⊢
        split_ifs at hab hbc ⊢ <;> try omega
        all_goals first
          | rfl
          | exact hab
          | exact hbc
          | exact ih ys zs hab hbc

theorem lexLtB_append_cancel (p a b : List Char) :
    lexLtB (p ++ a) (p ++ b) = lexLtB a b := by
  induction p with
  | nil => rfl
  | cons x xs ih => simp [lexLtB, ih]

theorem isPrefixOfB_append (p t : List Char) : isPrefixOfB p (p ++ t) = true := by
  induction p with
  | nil => rfl
  | cons x xs ih => simp [isPrefixOfB, ih]

theorem isPrefixOfB_exists (p l : List Char) (h : isPrefixOfB p l = true) :
    ∃ t, l = p ++ t := by
  induction p generalizing l with
  | nil => exact ⟨l, rfl⟩
  | cons x xs ih =>
    match l, h with
    | y :: ys, h =>
      simp only [isPrefixOfB, Bool.and_eq_true, beq_iff_eq] at h
      obtain ⟨rfl, h2⟩ := h
      obtain ⟨t, rfl⟩ := ih ys h2
      exact ⟨t, rfl⟩

theorem maxCode?_eq_none (l : List String) : maxCode? l = none ↔ l = [] := by
  cases l with
  | nil => simp [maxCode?]
  | cons c rest =>
    simp only [maxCode?]
    constructor
    · intro h
      cases hr : maxCode? rest <;> rw [hr] at h <;> simp at h
      split at h <;> simp at h
    · intro h; exact absurd h (List.cons_ne_nil c rest)

theorem maxCode?_spec (l : List String) (m : String) (h : maxCode? l = some m) :
    m ∈ l ∧ ∀ c ∈ l, lexLtB m.data c.data = false := by
  induction l generalizing m with
  | nil => simp [maxCode?] at h
  | cons c rest ih =>
    simp only [maxCode?] at h
    cases hr : maxCode? rest with
    | none =>
      rw [hr] at h
      dsimp only at h
      have hrest : rest = [] := (maxCode?_eq_none rest).mp hr
      subst hrest
      simp at h
      subst h
      refine ⟨by simp, ?_⟩
      intro c' hc'
      simp at hc'
      subst hc'
      exact lexLtB_irrefl _
    | some m' =>
      rw [hr] at h
      dsimp only at h
      obtain ⟨hmem, hub⟩ := ih m' hr
      by_cases hlt : lexLtB m'.data c.data = true
      · rw [if_pos hlt] at h
        cases h
        refine ⟨by simp, ?_⟩
        intro c' hc'
        rcases List.mem_cons.mp hc' with rfl | hc'
        · exact lexLtB_irrefl _
        · by_contra hcc
          rw [Bool.not_eq_false] at hcc
          have := lexLtB_trans m'.data c.data c'.data hlt hcc
          rw [hub c' hc'] at this
          exact Bool.false_ne_true this
      · rw [if_neg hlt] at h
        cases h
        refine ⟨List.mem_cons_of_mem _ hmem, ?_⟩
        intro c' hc'
        rcases List.mem_cons.mp hc' with rfl | hc'
        · exact Bool.not_eq_true _ |>.mp hlt
        · exact hub c' hc'

theorem data_strAppend (a b : String) : (strAppend a b).data = a.data ++ b.data := rfl

theorem formatCode_data (pfx : String) (n : ℕ) :
    (formatCode pfx n).data = pfx.data ++ padStart3 (natDigits n) := rfl

theorem strStartsWithB_formatCode (pfx : String) (n : ℕ) :
    strStartsWithB (formatCode pfx n) pfx = true := by
  show isPrefixOfB pfx.data (pfx.data ++ padStart3 (natDigits n)) = true
  exact isPrefixOfB_append _ _

theorem jsNumberNat?_pad (n : ℕ) :
    jsNumberNat? ⟨padStart3 (natDigits n)⟩ = some n := by
  have hall : (padStart3 (natDigits n)).all (fun c => isDigitB c) = true := by
    rw [List.all_eq_true]
    exact padStart3_all_digits n
  show (if _ then _ else _) = _
  rw [if_pos hall, natFromDigits_padStart3]

theorem currentOf_formatCode (pfx : String) (n : ℕ) :
    currentOf pfx (some (formatCode pfx n)) = n := by
  show (if strStartsWithB (formatCode pfx n) pfx then _ else _) = n
  rw [if_pos (strStartsWithB_formatCode pfx n)]
  have hdrop : strDropData (formatCode pfx n) pfx.data.length = ⟨padStart3 (natDigits n)⟩ := by
    show (⟨(formatCode pfx n).data.drop pfx.data.length⟩ : String) = _
    rw [formatCode_data, List.drop_left]
  rw [hdrop, jsNumberNat?_pad]
  rfl

theorem lexLtB_digits_iff (u v : List Char) (hu : u.length = 3) (hv : v.length = 3)
    (du : ∀ c ∈ u, isDigitB c = true) (dv : ∀ c ∈ v, isDigitB c = true) :
    lexLtB u v = true ↔ natFromDigits u < natFromDigits v := by
  obtain ⟨a, b, c, rfl⟩ := List.length_eq_three.mp hu
  obtain ⟨d, e, f, rfl⟩ := List.length_eq_three.mp hv
  have ha := du a (by simp); have hb := du b (by simp); have hc := du c (by simp)
  have hd := dv d (by simp); have he := dv e (by simp); have hf := dv f (by simp)
  simp only [isDigitB, Bool.and_eq_true, decide_eq_true_eq] at ha hb hc hd he hf
  simp only [lexLtB, natFromDigits, List.foldl, digitVal]
  split_ifs <;> simp <;> omega

theorem lexLtB_pad_iff (n m : ℕ) (hn : n ≤ 999) (hm : m ≤ 999) :
    (lexLtB (padStart3 (natDigits n)) (padStart3 (natDigits m)) = true) ↔ n < m := by
  have hlenn : (padStart3 (natDigits n)).length = 3 := by
    rw [padStart3_len]
    have := natDigits_len_le_3 n hn
    have := natDigits_len_pos n
    omega
  have hlenm : (padStart3 (natDigits m)).length = 3 := by
    rw [padStart3_len]
    have := natDigits_len_le_3 m hm
    have := natDigits_len_pos m
    omega
  rw [lexLtB_digits_iff _ _ hlenn hlenm (padStart3_all_digits n) (padStart3_all_digits m),
    natFromDigits_padStart3, natFromDigits_padStart3]

theorem lexLtB_formatCode_iff (pfx : String) (n m : ℕ) (hn : n ≤ 999) (hm : m ≤ 999) :
    (lexLtB (formatCode pfx n).data (formatCode pfx m).data = true) ↔ n < m := by
  rw [formatCode_data, formatCode_data, lexLtB_append_cancel]
  exact lexLtB_pad_iff n m hn hm

theorem allocStep_next (pfx : String) (k : ℕ) (hk1 : 1 ≤ k) (hk : k ≤ 999)
    (cat : List String)
    (hmem : formatCode pfx k ∈ cat)
    (hall : ∀ c ∈ cat, ∃ i, 1 ≤ i ∧ i ≤ k ∧ c = formatCode pfx i) :
    nextCodeForPfx pfx cat = formatCode pfx (k + 1) := by
  have hfilter : cat.filter (fun c => strStartsWithB c pfx) = cat := by
    rw [List.filter_eq_self]
    intro c hc
    obtain ⟨i, _, _, rfl⟩ := hall c hc
    exact strStartsWithB_formatCode pfx i
  have hne : cat ≠ [] := fun h => by subst h; simp at hmem
  obtain ⟨m, hmax⟩ : ∃ m, maxCode? cat = some m := by
    cases hm : maxCode? cat with
    | none => exact absurd ((maxCode?_eq_none cat).mp hm) hne
    | some m => exact ⟨m, rfl⟩
  obtain ⟨hmm, hub⟩ := maxCode?_spec cat m hmax
  obtain ⟨j, hj1, hjk, hmj⟩ := hall m hmm
  have hjek : j = k := by
    by_contra hne2
    have hjlt : j < k := by omega
    have := hub (formatCode pfx k) hmem
    rw [hmj] at this
    rw [Bool.eq_false_iff] at this
    exact this ((lexLtB_formatCode_iff pfx j k (by omega) hk).mpr hjlt)
  subst hjek
  subst hmj
  unfold nextCodeForPfx
  rw [hfilter, hmax, currentOf_formatCode]

theorem allocSeq_canon (pfx : String) : ∀ k, k ≤ 1000 →
    allocSeq pfx k = ((List.range k).map fun i => formatCode pfx (i + 1),
      ((List.range k).map fun i => formatCode pfx (i + 1)).reverse) := by
  intro k
  induction k with
  | zero => intro _; simp [allocSeq]
  | succ n ih =>
    intro h
    have hcanon := ih (by omega)
    show allocStep pfx (allocSeq pfx n) = _
    rw [hcanon]
    have hnext : nextCodeForPfx pfx (((List.range n).map fun i => formatCode pfx (i + 1)).reverse) =
        formatCode pfx (n + 1) := by
      by_cases hn : n = 0
      · subst hn
        show formatCode pfx (currentOf pfx (maxCode? _) + 1) = _
        simp [maxCode?, currentOf]
      · apply allocStep_next pfx n (by omega) (by omega)
        · rw [List.mem_reverse, List.mem_map]
          exact ⟨n - 1, by rw [List.mem_range]; omega, by congr 1; omega⟩
        · intro c hc
          rw [List.mem_reverse, List.mem_map] at hc
          obtain ⟨i, hi, rfl⟩ := hc
          rw [List.mem_range] at hi
          exact ⟨i + 1, by omega, by omega, rfl⟩
    show (_ ++ [nextCodeForPfx pfx _], nextCodeForPfx pfx _ :: _) = _
    rw [hnext]
    rw [List.range_succ, List.map_append, List.reverse_append]
    simp

theorem formatCode_inj (pfx : String) (n m : ℕ) (h : formatCode pfx n = formatCode pfx m) :
    n = m := by
  have hdata : pfx.data ++ padStart3 (natDigits n) = pfx.data ++ padStart3 (natDigits m) := by
    rw [← formatCode_data, ← formatCode_data, h]
  have hpad := List.append_cancel_left hdata
  have := natFromDigits_padStart3 n
  rw [hpad, natFromDigits_padStart3] at this
  omega

theorem allocCodes_canon (pfx : String) (N : ℕ) (hN : N ≤ 1000) :
    allocCodes pfx N = (List.range N).map fun i => formatCode pfx (i + 1) := by
  unfold allocCodes
  rw [allocSeq_canon pfx N hN]

theorem allocCodes_nodup (pfx : String) (N : ℕ) (hN : N ≤ 1000) :
    (allocCodes pfx N).Nodup := by
  rw [allocCodes_canon pfx N hN]
  apply List.Nodup.map
  · intro a b hab
    have := formatCode_inj pfx (a + 1) (b + 1) hab
    omega
  · exact List.nodup_range N

theorem allocStep_at_1000 (pfx : String) (cat : List String)
    (hmem : formatCode pfx 999 ∈ cat)
    (hall : ∀ c ∈ cat, ∃ i, 1 ≤ i ∧ i ≤ 1000 ∧ c = formatCode pfx i) :
    nextCodeForPfx pfx cat = formatCode pfx 1000 := by
  have hfilter : cat.filter (fun c => strStartsWithB c pfx) = cat := by
    rw [List.filter_eq_self]
    intro c hc
    obtain ⟨i, _, _, rfl⟩ := hall c hc
    exact strStartsWithB_formatCode pfx i
  have hne : cat ≠ [] := fun h => by subst h; simp at hmem
  obtain ⟨m, hmax⟩ : ∃ m, maxCode? cat = some m := by
    cases hm : maxCode? cat with
    | none => exact absurd ((maxCode?_eq_none cat).mp hm) hne
    | some m => exact ⟨m, rfl⟩
  obtain ⟨hmm, hub⟩ := maxCode?_spec cat m hmax
  obtain ⟨j, hj1, hjk, hmj⟩ := hall m hmm
  have hpadlt : lexLtB (padStart3 (natDigits 1000)) (padStart3 (natDigits 999)) = true := by
    decide
  have hj999 : j = 999 := by
    by_cases hj1000 : j = 1000
    · exfalso
      have := hub (formatCode pfx 999) hmem
      rw [hmj, hj1000] at this
      rw [Bool.eq_false_iff] at this
      apply this
      rw [formatCode_data, formatCode_data, lexLtB_append_cancel]
      exact hpadlt
    · by_contra hne2
      have hjlt : j < 999 := by omega
      have := hub (formatCode pfx 999) hmem
      rw [hmj] at this
      rw [Bool.eq_false_iff] at this
      exact this ((lexLtB_formatCode_iff pfx j 999 (by omega) (by omega)).mpr hjlt)
  subst hj999
  subst hmj
  unfold nextCodeForPfx
  rw [hfilter, hmax, currentOf_formatCode]

theorem allocCodes_1001_repeat :
    allocCodes "A" 1001 =
      ((List.range 1000).map fun i => formatCode "A" (i + 1)) ++ [formatCode "A" 1000] := by
  have h1000 := allocSeq_canon "A" 1000 (by omega)
  show (allocStep "A" (allocSeq "A" 1000)).1 = _
  rw [h1000]
  show _ ++ [nextCodeForPfx "A" _] = _
  rw [allocStep_at_1000 "A" _ ?hmem ?hall]
  case hmem =>
    rw [List.mem_reverse, List.mem_map]
    exact ⟨998, by rw [List.mem_range]; omega, by congr 1⟩
  case hall =>
    intro c hc
    rw [List.mem_reverse, List.mem_map] at hc
    obtain ⟨i, hi, rfl⟩ := hc
    rw [List.mem_range] at hi
    exact ⟨i + 1, by omega, by omega, rfl⟩

theorem natFromDigits_lt_pow (l : List Char) (hd : ∀ c ∈ l, isDigitB c = true) :
    natFromDigits l < 10 ^ l.length := by
  suffices h : ∀ acc : ℕ, l.foldl (fun a c => a * 10 + digitVal c) acc < (acc + 1) * 10 ^ l.length by
    have := h 0
    simpa [natFromDigits] using this
  induction l with
  | nil => intro acc; simp
  | cons c cs ih =>
    intro acc
    have hc := hd c (by simp)
    have hdv : digitVal c ≤ 9 := by
      simp only [isDigitB, Bool.and_eq_true, decide_eq_true_eq] at hc
      simp only [digitVal]; omega
    have hih := ih (fun c hc => hd c (by simp [hc])) (acc * 10 + digitVal c)
    simp only [List.foldl_cons, List.length_cons]
    calc List.foldl (fun a c => a * 10 + digitVal c) (acc * 10 + digitVal c) cs
        < (acc * 10 + digitVal c + 1) * 10 ^ cs.length := hih
      _ ≤ (acc + 1) * 10 ^ (cs.length + 1) := by
          rw [pow_succ]
          have hstep : acc * 10 + digitVal c + 1 ≤ (acc + 1) * 10 := by omega
          calc (acc * 10 + digitVal c + 1) * 10 ^ cs.length
              ≤ (acc + 1) * 10 * 10 ^ cs.length := Nat.mul_le_mul_right _ hstep
            _ = (acc + 1) * (10 ^ cs.length * 10) := by ring

theorem postSaveLoop_error (ps : List IncomingProduct) :
    ∀ (cat : List String) (saved : List SavedProduct) (k : ℕ) (cat1 : List String),
    postSaveLoop ps cat saved = (.serverError k, cat1) →
    ∃ j, j < ps.length ∧ k = saved.length + j ∧
      ∃ s, postSaveLoop (ps.take j) cat saved = (.ok s, cat1) ∧ s.length = k := by
  induction ps with
  | nil =>
    intro cat saved k cat1 h
    simp [postSaveLoop] at h
  | cons raw rest ih =>
    intro cat saved k cat1 h
    simp only [postSaveLoop] at h
    by_cases hc : nextCodeForPfx (resolvePfx raw.category) cat ∈ cat
    · rw [if_pos hc] at h
      injection h with h1 h2
      injection h1 with hk
      refine ⟨0, by simp, by omega, saved, ?_, by omega⟩
      simp [postSaveLoop, h2]
    · rw [if_neg hc] at h
      obtain ⟨j, hj, hk, s, hs, hslen⟩ := ih _ _ _ _ h
      refine ⟨j + 1, by simp; omega, by simp at hk ⊢; omega, s, ?_, hslen⟩
      simp only [List.take_succ_cons, postSaveLoop]
      rw [if_neg hc]
      exact hs

theorem postSaveLoop_cat_grows (ps : List IncomingProduct) :
    ∀ (cat : List String) (saved : List SavedProduct) (r : PostResponse) (cat1 : List String),
    postSaveLoop ps cat saved = (r, cat1) →
    ∃ codes, cat1 = codes ++ cat := by
  induction ps with
  | nil =>
    intro cat saved r cat1 h
    simp only [postSaveLoop] at h
    injection h with h1 h2
    exact ⟨[], by rw [← h2]; simp⟩
  | cons raw rest ih =>
    intro cat saved r cat1 h
    simp only [postSaveLoop] at h
    by_cases hc : nextCodeForPfx (resolvePfx raw.category) cat ∈ cat
    · rw [if_pos hc] at h
      injection h with h1 h2
      exact ⟨[], by rw [← h2]; simp⟩
    · rw [if_neg hc] at h
      obtain ⟨codes, hcodes⟩ := ih _ _ _ _ h
      exact ⟨codes ++ [nextCodeForPfx (resolvePfx raw.category) cat], by
        rw [hcodes]; simp⟩

theorem filterMap_length_partition {α β : Type} (l : List α) (f : α → Option β) :
    (l.filterMap f).length + (l.filter fun a => (f a).isNone).length = l.length := by
  induction l with
  | nil => rfl
  | cons a as ih =>
    cases hf : f a with
    | none => simp [List.filterMap_cons, List.filter_cons, hf]; omega
    | some b => simp [List.filterMap_cons, List.filter_cons, hf]; omega

/-! Claim theorems. -/

/-- C1 (corrected, counterexample): the claim fails at prefix "A" and
N = 1001: the 1000th allocation already produced "A1000", whose code-unit
order is below "A999", so the descending query still sees "A999" as the
maximum and the 1001st allocation returns "A1000" again — a repeat, so the
produced codes are not the padded sequence without repeats. -/
theorem C1_counterexample : ¬ (allocCodes "A" 1001).Nodup := by
  intro h
  rw [allocCodes_1001_repeat] at h
  have hmem : formatCode "A" 1000 ∈ (List.range 1000).map fun i => formatCode "A" (i + 1) := by
    rw [List.mem_map]
    exact ⟨999, by rw [List.mem_range]; omega, by congr 1⟩
  have hdisj := (List.nodup_append.mp h).2.2
  exact hdisj hmem (by simp)

/-- C1 (corrected, amended): for every prefix and every N up to 1000,
N sequential non-concurrent allocations from an empty catalog, inserting each
allocated code before the next call, produce exactly the codes
prefix + zero-padded 1, ..., prefix + zero-padded N (width 3, the number 1000
rendered with its full four digits) with no repeats. -/
theorem C1_amended (pfx : String) (N : ℕ) (hN : N ≤ 1000) :
    allocCodes pfx N = ((List.range N).map fun i => formatCode pfx (i + 1)) ∧
    (allocCodes pfx N).Nodup :=
  ⟨allocCodes_canon pfx N hN, allocCodes_nodup pfx N hN⟩

/-- C1 witness: three sequential allocations under prefix "A" from an empty
catalog produce A001, A002, A003 with no repeats. -/
theorem C1_amended_witness :
    allocCodes "A" 3 = ["A001", "A002", "A003"] ∧ (allocCodes "A" 3).Nodup := by
  have h := C1_amended "A" 3 (by omega)
  exact ⟨h.1.trans (by decide), h.2⟩

/-- C2 (corrected, counterexample): on the catalog containing A999 and A1000
— a state the allocator itself produces — the descending query returns A999
(code-unit order puts "A999" above "A1000"), so the allocator returns
"A1000", a code already present in the catalog. -/
theorem C2_counterexample :
    nextCodeForPfx "A" ["A1000", "A999"] = "A1000" ∧
    "A1000" ∈ (["A1000", "A999"] : List String) :=
  ⟨by decide, by decide⟩

/-- C2 (corrected, amended): for every prefix and every catalog in which each
code starting with the prefix consists of the prefix followed by exactly
three decimal digits, a single allocator call — maximal code by descending
code-unit order restricted to the prefix, numeric suffix parsed with default
0, incremented, zero-padded — returns a code not present in the catalog. -/
theorem C2_amended (pfx : String) (cat : List String)
    (H : ∀ c ∈ cat, strStartsWithB c pfx = true →
        ((c.data.drop pfx.data.length).length = 3 ∧
          ∀ ch ∈ c.data.drop pfx.data.length, isDigitB ch = true)) :
    nextCodeForPfx pfx cat ∉ cat := by
  intro hin
  have hsw : strStartsWithB (nextCodeForPfx pfx cat) pfx = true :=
    strStartsWithB_formatCode pfx _
  have hfl : nextCodeForPfx pfx cat ∈ cat.filter (fun c => strStartsWithB c pfx) :=
    List.mem_filter.mpr ⟨hin, hsw⟩
  obtain ⟨m, hmax⟩ : ∃ m, maxCode? (cat.filter (fun c => strStartsWithB c pfx)) = some m := by
    cases hm : maxCode? (cat.filter (fun c => strStartsWithB c pfx)) with
    | none =>
      rw [maxCode?_eq_none] at hm
      rw [hm] at hfl
      exact absurd hfl (List.not_mem_nil _)
    | some m => exact ⟨m, rfl⟩
  obtain ⟨hmm, hub⟩ := maxCode?_spec _ m hmax
  have hmcat := (List.mem_filter.mp hmm).1
  have hmsw : strStartsWithB m pfx = true := (List.mem_filter.mp hmm).2
  obtain ⟨hmlen, hmdig⟩ := H m hmcat hmsw
  obtain ⟨t, hmt⟩ := isPrefixOfB_exists pfx.data m.data hmsw
  have hdropm : m.data.drop pfx.data.length = t := by rw [hmt, List.drop_left]
  set v := natFromDigits t with hv
  have hvlt : v < 1000 := by
    have := natFromDigits_lt_pow t (by rw [← hdropm] at *; exact fun c hc => hmdig c hc)
    rw [hdropm] at hmlen
    rw [hmlen] at this
    simpa using this
  have hcur : currentOf pfx (some m) = v := by
    show (if strStartsWithB m pfx then _ else _) = v
    rw [if_pos hmsw]
    have hdd : strDropData m pfx.data.length = ⟨t⟩ := by
      show (⟨m.data.drop pfx.data.length⟩ : String) = _
      rw [hdropm]
    rw [hdd]
    have hall : t.all (fun c => isDigitB c) = true := by
      rw [List.all_eq_true]
      intro c hc
      rw [← hdropm] at hc
      exact hmdig c hc
    show ((if _ then _ else _ : Option ℕ)).getD 0 = v
    rw [if_pos hall]
    rfl
  have hres : nextCodeForPfx pfx cat = formatCode pfx (v + 1) := by
    unfold nextCodeForPfx
    rw [hmax, hcur]
  rw [hres] at hin
  obtain ⟨hrlen, hrdig⟩ := H _ hin (strStartsWithB_formatCode pfx (v + 1))
  have hdropr : (formatCode pfx (v + 1)).data.drop pfx.data.length =
      padStart3 (natDigits (v + 1)) := by
    rw [formatCode_data, List.drop_left]
  rw [hdropr] at hrlen
  have hv999 : v + 1 ≤ 999 := by
    by_contra hgt
    have h1000 : 1000 ≤ v + 1 := by omega
    have := natDigits_len_ge_4 (v + 1) h1000
    rw [padStart3_len] at hrlen
    omega
  have hltval : natFromDigits t < natFromDigits (padStart3 (natDigits (v + 1))) := by
    rw [natFromDigits_padStart3]
    omega
  have hlen3 : (padStart3 (natDigits (v + 1))).length = 3 := by
    rw [padStart3_len]
    have := natDigits_len_le_3 (v + 1) hv999
    have := natDigits_len_pos (v + 1)
    omega
  have hmlen3 : t.length = 3 := by rw [← hdropm]; exact hmlen
  have hlex : lexLtB m.data (formatCode pfx (v + 1)).data = true := by
    rw [hmt, formatCode_data, lexLtB_append_cancel]
    rw [lexLtB_digits_iff t _ hmlen3 hlen3
      (fun c hc => hmdig c (by rw [hdropm]; exact hc))
      (padStart3_all_digits (v + 1))]
    exact hltval
  have hub2 := hub (formatCode pfx (v + 1)) (hres ▸ hfl)
  rw [hub2] at hlex
  exact Bool.false_ne_true hlex

/-- C2 witness: on a catalog whose A-codes are canonical three-digit codes,
the allocator's result is fresh. -/
theorem C2_amended_witness :
    nextCodeForPfx "A" ["A007", "B123"] ∉ (["A007", "B123"] : List String) :=
  C2_amended "A" ["A007", "B123"] (by decide)

/-- C3 (confirmed): the allocator's formatting appends to the prefix the
decimal digits of the incremented number left-padded with zeros to width 3;
for numbers up to 999 the numeric portion has exactly width 3, for numbers
from 1000 on it is the full (unpadded, untruncated) decimal representation,
and in every case parsing the numeric portion back recovers the number
exactly — nothing is truncated and no error is possible. -/
theorem C3_claim (pfx : String) (n : ℕ) :
    (formatCode pfx n).data = pfx.data ++ padStart3 (natDigits n) ∧
    (n ≤ 999 → (padStart3 (natDigits n)).length = 3) ∧
    (1000 ≤ n → padStart3 (natDigits n) = natDigits n) ∧
    natFromDigits ((formatCode pfx n).data.drop pfx.data.length) = n := by
  refine ⟨formatCode_data pfx n, ?_, ?_, ?_⟩
  · intro hn
    rw [padStart3_len]
    have := natDigits_len_le_3 n hn
    have := natDigits_len_pos n
    omega
  · intro hn
    exact padStart3_eq_self _ (by have := natDigits_len_ge_4 n hn; omega)
  · rw [formatCode_data, List.drop_left, natFromDigits_padStart3]

/-- C3 witness: 1234 widens to its full four digits and parses back exactly;
12 pads to width 3. -/
theorem C3_witness :
    padStart3 (natDigits 1234) = natDigits 1234 ∧
    (padStart3 (natDigits 12)).length = 3 ∧
    natFromDigits ((formatCode "A" 1234).data.drop "A".data.length) = 1234 :=
  ⟨(C3_claim "A" 1234).2.2.1 (by omega), (C3_claim "B" 12).2.1 (by omega),
   (C3_claim "A" 1234).2.2.2⟩

/-- C4 (confirmed): the import route trims the free-text category label and
maps it through the fixed table; a missing, empty, or whitespace-only label
and every unrecognized label map to the catch-all prefix "Z", "Kitchen" maps
to "A", and the allocated code always lives in the namespace of the chosen
prefix (it is the prefix followed by the numeric part). -/
theorem C4_claim (s : String) (rawCat : Option String) (cat : List String) :
    resolvePfx none = "Z" ∧
    resolvePfx (some "") = "Z" ∧
    (strTrim s = "" → resolvePfx (some s) = "Z") ∧
    (s ≠ "" → strTrim s ≠ "" →
      resolvePfx (some s) = (categoryToPfxTable (strTrim s)).getD "Z") ∧
    resolvePfx (some "Kitchen") = "A" ∧
    (∃ numericPart, nextCodeForPfx (resolvePfx rawCat) cat =
      strAppend (resolvePfx rawCat) numericPart) := by
  refine ⟨by decide, by decide, ?_, ?_, by decide, ?_⟩
  · intro ht
    by_cases hs : s = ""
    · subst hs; decide
    · show (categoryToPfxTable (resolveCategory (some s))).getD "Z" = "Z"
      have hrc : resolveCategory (some s) = "Other" := by
        show (let c := if s = "" then "Other" else s
          let t := strTrim c
          if t = "" then "Other" else t) = "Other"
        simp only [if_neg hs]
        rw [if_pos ht]
      rw [hrc]
      decide
  · intro hs ht
    show (categoryToPfxTable (resolveCategory (some s))).getD "Z" = _
    have hrc : resolveCategory (some s) = strTrim s := by
      show (let c := if s = "" then "Other" else s
        let t := strTrim c
        if t = "" then "Other" else t) = strTrim s
      simp only [if_neg hs]
      rw [if_neg ht]
    rw [hrc]
  · exact ⟨⟨padStart3 (natDigits (currentOf (resolvePfx rawCat)
      (maxCode? (cat.filter fun c => strStartsWithB c (resolvePfx rawCat))) + 1))⟩, rfl⟩

/-- C4 witness: a whitespace-only label and an unrecognized label both map to
"Z", and an allocation under the "Kitchen" prefix stays in its namespace. -/
theorem C4_witness :
    resolvePfx (some "   ") = "Z" ∧
    resolvePfx (some "Garage") = "Z" ∧
    (∃ numericPart, nextCodeForPfx (resolvePfx (some "Kitchen")) [] =
      strAppend (resolvePfx (some "Kitchen")) numericPart) :=
  ⟨(C4_claim "   " none []).2.2.1 (by decide),
   by rw [(C4_claim "Garage" none []).2.2.2.1 (by decide) (by decide)]; decide,
   (C4_claim "Kitchen" (some "Kitchen") []).2.2.2.2.2⟩

/-- C5 (code bug): the client-side sanitizer keeps every digit and every dot,
so "$1,234.50" becomes "1234.50" as claimed, but "99.99.9" passes through
with both dots intact, and the import route's parseFloat then silently
truncates it to 99.99 and stores that price — the token is neither rejected
nor treated as absent, contradicting the claim. -/
theorem C5_claim :
    stripPriceInput "$1,234.50" = "1234.50" ∧
    stripPriceInput "99.99.9" = "99.99.9" ∧
    parseFloatQ? "99.99.9" = some (9999 / 100) ∧
    postPrice (some "99.99.9") = some (9999 / 100) := by
  have hparse : parseFloatQ? "99.99.9" = some (9999 / 100) := by
    have h1 : "99.99.9".data.takeWhile isDigitB = ['9', '9'] := by decide
    have h2 : "99.99.9".data.dropWhile isDigitB = ['.', '9', '9', '.', '9'] := by decide
    have h3 : (['9', '9', '.', '9'].takeWhile isDigitB) = ['9', '9'] := by decide
    have h4 : natFromDigits ['9', '9'] = 99 := by decide
    simp only [parseFloatQ?, h1, h2, h3, h4]
    norm_num
  refine ⟨by decide, by decide, hparse, ?_⟩
  show (if ("99.99.9" : String) = "" then none else parseFloatQ? "99.99.9") = _
  rw [if_neg (by decide)]
  exact hparse

/-- C6 (code bug): when the insert of an allocated code hits the uniqueness
constraint, the route does not retry with a recomputed number — the single
try/catch around the whole loop turns the very first conflict into the 500
"Failed to save products" response.  Concretely, on the catalog containing
Z999 and Z1000 the allocator recomputes the existing code "Z1000" for an
uncategorized product, the insert fails, and the whole import fails at once
with savedCount 0 and an unchanged catalog. -/
theorem C6_claim :
    postProducts [{ category := none }] ["Z999", "Z1000"] =
      (.serverError 0, ["Z999", "Z1000"]) := by
  decide

/-- C7 (confirmed): every record in the BWA import payload has a nonempty
(trimmed) code taken from a row whose trimmed code was nonempty; rows without
such a code are discarded before submission, and the import is submitted iff
at least one row carries a code — with zero coded rows nothing is sent. -/
theorem C7_claim (rows : List BwaRow) :
    (∀ it ∈ bwaImportPayload rows, it.code ≠ "" ∧
      ∃ r ∈ rows, strTrim r.code ≠ "" ∧ it.code = strTrim r.code) ∧
    (handleImportSubmits rows = none ↔ ∀ r ∈ rows, strTrim r.code = "") := by
  constructor
  · intro it hit
    rw [bwaImportPayload, List.mem_map] at hit
    obtain ⟨r, hr, rfl⟩ := hit
    rw [List.mem_filter] at hr
    obtain ⟨hrmem, hrcode⟩ := hr
    rw [bne_iff_ne] at hrcode
    exact ⟨hrcode, r, hrmem, hrcode, rfl⟩
  · rw [handleImportSubmits]
    constructor
    · intro h r hr
      by_contra hne
      have hpay : bwaImportPayload rows ≠ [] := by
        rw [bwaImportPayload]
        intro hmap
        rw [List.map_eq_nil_iff] at hmap
        rw [List.filter_eq_nil_iff] at hmap
        exact hmap r hr (by rw [bne_iff_ne]; exact hne)
      simp only [List.length_eq_zero] at h
      split at h
      · exact hpay (by assumption)
      · exact Option.some_ne_none _ h
    · intro h
      have hpay : bwaImportPayload rows = [] := by
        rw [bwaImportPayload, List.map_eq_nil_iff, List.filter_eq_nil_iff]
        intro r hr
        rw [bne_iff_ne]
        simp [h r hr]
      simp [hpay]

/-- C7 witness: a row whose code trims to "A1" yields a payload record with
the nonempty code "A1". -/
theorem C7_witness :
    (bwaItemOf ⟨" A1 ", "d", "", "", ""⟩).code ≠ "" :=
  ((C7_claim [⟨" A1 ", "d", "", "", ""⟩]).1
    (bwaItemOf ⟨" A1 ", "d", "", "", ""⟩) (by decide)).1

/-- C8 (confirmed, matcher modelled from the spec): running the matcher on
any extracted code list partitions it — the number of matched rows plus the
number of not-found codes equals the number of codes, a matched row's code is
never case-insensitively equal to a not-found code (the two sides are
disjoint), and the catalog the run leaves behind is exactly the input catalog
(the matcher never mutates it). -/
theorem C8_claim (allCodes : List String) (catalog : List CatalogProduct) :
    ((matchCodes allCodes catalog).1.length + (matchCodes allCodes catalog).2.length
      = allCodes.length) ∧
    (∀ p ∈ (matchCodes allCodes catalog).1, ∀ c ∈ (matchCodes allCodes catalog).2,
      codeEqCI p.code c = false) ∧
    (matchCodesRun allCodes catalog).2 = catalog := by
  refine ⟨filterMap_length_partition allCodes _, ?_, rfl⟩
  intro p hp c hc
  rw [matchCodes] at hp hc
  simp only at hp hc
  rw [List.mem_filterMap] at hp
  obtain ⟨c', _, hfind⟩ := hp
  have hpcat : p ∈ catalog := List.mem_of_find?_eq_some hfind
  rw [List.mem_filter] at hc
  obtain ⟨hcmem, hcnone⟩ := hc
  rw [Option.isNone_iff_eq_none, List.find?_eq_none] at hcnone
  have hne := hcnone p hpcat
  rw [Bool.not_eq_true] at hne
  exact hne

/-- C8 witness: matching BW-001 and BW-002 against a catalog holding only
bw-001 partitions into one match and one not-found code, the match being
disjoint from the not-found code. -/
theorem C8_witness :
    ((matchCodes ["BW-001", "BW-002"] [⟨"bw-001", "Tile"⟩]).1.length +
      (matchCodes ["BW-001", "BW-002"] [⟨"bw-001", "Tile"⟩]).2.length = 2) ∧
    codeEqCI (⟨"bw-001", "Tile"⟩ : CatalogProduct).code "BW-002" = false :=
  ⟨(C8_claim ["BW-001", "BW-002"] [⟨"bw-001", "Tile"⟩]).1,
   (C8_claim ["BW-001", "BW-002"] [⟨"bw-001", "Tile"⟩]).2.1
     ⟨"bw-001", "Tile"⟩ (by decide) "BW-002" (by decide)⟩

/-- C9 (code bug): nothing serializes concurrent allocations — there is no
transaction and no per-prefix lock around the read-then-insert sequence — so
in the interleaving where both requests read before either inserts, two
simultaneous allocations for prefix "A" on an empty catalog both compute
"A001": the codes collide instead of being distinct. -/
theorem C9_claim :
    (concurrentPairAlloc "A" []).1 = (concurrentPairAlloc "A" []).2 ∧
    (concurrentPairAlloc "A" []).1 = "A001" := by
  decide

/-- C10 (confirmed): the import route is not atomic — products are created
one at a time in submission order, and when a creation fails at position k
the route answers with the 500 response carrying savedCount = k while the
catalog keeps exactly the k codes created before the failure on top of its
initial contents; every initial row is still present (nothing is rolled
back), and the state equals the state reached by successfully processing
precisely the first k products. -/
theorem C10_claim (products : List IncomingProduct) (cat0 : List String)
    (k : ℕ) (cat1 : List String)
    (h : postProducts products cat0 = (.serverError k, cat1)) :
    k < products.length ∧
    (∃ s, postSaveLoop (products.take k) cat0 [] = (.ok s, cat1) ∧ s.length = k) ∧
    (∃ codes, cat1 = codes ++ cat0) ∧
    (∀ c ∈ cat0, c ∈ cat1) := by
  have hne : products ≠ [] := by
    intro hnil
    rw [hnil] at h
    simp only [postProducts, if_pos rfl] at h
    injection h with h1 h2
    exact PostResponse.noConfusion h1
  rw [postProducts, if_neg hne] at h
  obtain ⟨j, hj, hk, s, hs, hslen⟩ := postSaveLoop_error products cat0 [] k cat1 h
  have hkj : k = j := by simp at hk; omega
  subst hkj
  obtain ⟨codes, hcodes⟩ := postSaveLoop_cat_grows products cat0 [] _ cat1 h
  refine ⟨hj, ⟨s, hs, hslen⟩, ⟨codes, hcodes⟩, ?_⟩
  intro c hc
  rw [hcodes]
  exact List.mem_append_right _ hc

/-- C10 witness: importing a Kitchen product then an uncategorized product
into the catalog holding Z999 and Z1000 creates A001, then fails on the
recomputed duplicate Z1000; the route reports savedCount 1 and the catalog
keeps A001 on top of the untouched initial rows. -/
theorem C10_witness :
    1 < ([{ category := some "Kitchen" }, { category := none }] : List IncomingProduct).length ∧
    (∃ s, postSaveLoop (([{ category := some "Kitchen" }, { category := none }]
        : List IncomingProduct).take 1) ["Z999", "Z1000"] [] =
      (.ok s, ["A001", "Z999", "Z1000"]) ∧ s.length = 1) ∧
    (∃ codes, ["A001", "Z999", "Z1000"] = codes ++ ["Z999", "Z1000"]) ∧
    (∀ c ∈ (["Z999", "Z1000"] : List String), c ∈ (["A001", "Z999", "Z1000"] : List String)) :=
  C10_claim [{ category := some "Kitchen" }, { category := none }]
    ["Z999", "Z1000"] 1 ["A001", "Z999", "Z1000"] (by decide)
